import Mathlib

/-!
A shallow embedding of the Steiner-system search engine of this repository
(single source file `src/lib.rs`: `fn permutations`, `fn larger_sets`,
`struct SteinerSearch`, `struct SteinerSearcher` with `new`,
`get_item_permutations` and `impl Iterator for SteinerSearcher`), together
with proofs about the embedded program.

Modelling notes, applied uniformly below:
* `usize` values are embedded as `Nat` (no arithmetic in the program can
  overflow a `usize` before memory is exhausted, and none of the claims
  concerns machine-width wraparound).
* Rust `Vec` is embedded as `List`; `HashSet<Vec<Vec<usize>>>` is used by the
  program only through `insert` and `contains`, so it is embedded as a list
  of signatures with insert-if-absent at the head.
* `HashMap` appears only as the `set_permutations` memoization table of the
  pure function `permutations(key, t)` (`get_item_permutations`): every
  lookup returns exactly `permutations key t`, so the embedding calls the
  pure function directly.
* The `Observer` only gates a diagnostic `println!` and never changes search
  state, so it is dropped.
-/

/-- Combination generator, Rust `fn permutations` (lib.rs lines 10-21). The
Rust loop over `i` in `0..set.len()`, prefixing `set[i]` to each result of the
recursive call on `set[i+1..]`, is the head/tail split of the list: position
0 keeps the head, and positions `1..` are exactly the same loop on the tail
at the same size, concatenated after the head part. Size 0 is the Rust
`..=0 => vec![vec![]]` arm. -/
def permutations {α : Type} : List α → Nat → List (List α)
  | _, 0 => [[]]
  | [], _ + 1 => []
  | x :: xs, size + 1 =>
      ((permutations xs size).map (fun p => x :: p)) ++ permutations xs (size + 1)

/-- Models the Rust pattern of looping `i` over `0..v.len()` while using both
`v[i]` and `v` with position `i` removed (`let d = v.remove(i)` on a clone):
entry `i` of `pickOne v` is the pair of `v[i]` and `v` minus position `i`,
listed in index order. -/
def pickOne {α : Type} : List α → List (α × List α)
  | [] => []
  | x :: xs => (x, xs) :: (pickOne xs).map (fun p => (p.1, x :: p.2))

/-- Insertion of `x` into `l` at the index returned by Rust
`l.binary_search(&x).map_or_else(|i| i, |i| i)`, i.e. before the first element
not below `x`. Rust binary search assumes a sorted vector; every vector the
program searches is sorted, and there this linear scan lands on the same
index, both when `x` is absent (the `Err` insertion point) and when it is
present (the unique matching index of a duplicate-free sorted vector). -/
def insSortedBy {α : Type} (le : α → α → Bool) (x : α) : List α → List α
  | [] => [x]
  | y :: ys => if le x y then x :: y :: ys else y :: insSortedBy le x ys

/-- The order used by `binary_search` on `Vec<usize>`. -/
def natLe (a b : Nat) : Bool := a ≤ b

/-- Strict lexicographic comparison of two blocks: Rust `Vec<usize>::cmp`
returning `Ordering::Less` (lexicographic, a strict prefix is smaller). -/
def lexLtN : List Nat → List Nat → Bool
  | [], [] => false
  | [], _ :: _ => true
  | _ :: _, [] => false
  | a :: as, b :: bs => if a < b then true else if b < a then false else lexLtN as bs

/-- The total order on blocks: `a` at or below `b`, i.e. `cmp` is not
`Ordering::Greater`. Used for `set.binary_search(&larger_set)`. -/
def lexLeN (a b : List Nat) : Bool := !(lexLtN b a)

/-- Lexicographic comparison of signatures (`Vec<Vec<usize>>::cmp` not
`Ordering::Greater`), the order of `new_fringe.sort_by(|a, b| a.set.cmp(&b.set))`. -/
def lexLeSig : List (List Nat) → List (List Nat) → Bool
  | [], _ => true
  | _ :: _, [] => false
  | a :: as, b :: bs => if lexLtN a b then true else if lexLtN b a then false else lexLeSig as bs

theorem pickOne_perm {α : Type} {y : α} {ys : List α} :
    ∀ {l : List α}, (y, ys) ∈ pickOne l → l.Perm (y :: ys)
  | [], h => by simp [pickOne] at h
  | x :: xs, h => by
    simp only [pickOne, List.mem_cons, List.mem_map] at h
    rcases h with h | ⟨⟨a, b⟩, hab, heq⟩
    · rw [Prod.mk.injEq] at h
      rw [h.1, h.2]
    · rw [Prod.mk.injEq] at heq
      rw [← heq.1, ← heq.2]
      exact ((pickOne_perm hab).cons x).trans (List.Perm.swap a x b)

theorem pickOne_length {α : Type} {l : List α} {y : α} {ys : List α}
    (h : (y, ys) ∈ pickOne l) : ys.length + 1 = l.length := by
  have := (pickOne_perm h).length_eq
  simp at this
  omega

/-- Recursion worker for `larger_sets`, structurally recursive on `depth`.
Every recursive call of the Rust function removes exactly one digit from
`availableDigits`, so the pool length counts the remaining recursion depth
exactly; `larger_sets` below instantiates `depth` with it. The `depth = 0`
arm is reached only with an empty pool, where the Rust `flat_map` over
`0..0` also produces nothing. -/
def larger_setsAux : Nat → List Nat → List Nat → Nat → List (List Nat)
  | 0, startingSet, _, targetSize =>
    if startingSet.length = targetSize then [startingSet] else []
  | d + 1, startingSet, availableDigits, targetSize =>
    if startingSet.length = targetSize then [startingSet]
    else
      (pickOne availableDigits).flatMap fun pr =>
        larger_setsAux d (insSortedBy natLe pr.1 startingSet) pr.2 targetSize

/-- Superset expander, Rust `fn larger_sets` (lib.rs lines 29-50): grow the
sorted `startingSet` to `targetSize` elements by repeatedly removing one
digit from `availableDigits` (every position is tried) and inserting it into
the set at its binary-search position. -/
def larger_sets (startingSet availableDigits : List Nat) (targetSize : Nat) : List (List Nat) :=
  larger_setsAux availableDigits.length startingSet availableDigits targetSize

theorem flatMap_congr {α β : Type} {l : List α} {f g : α → List β}
    (h : ∀ a ∈ l, f a = g a) : l.flatMap f = l.flatMap g := by
  induction l with
  | nil => rfl
  | cons x xs ih =>
    simp only [List.flatMap_cons, h x (List.mem_cons_self x xs)]
    rw [ih fun a ha => h a (List.mem_cons_of_mem x ha)]

/-- The defining recurrence of `larger_sets`, with the depth argument of the
worker eliminated. -/
theorem larger_sets_eq (startingSet availableDigits : List Nat) (targetSize : Nat) :
    larger_sets startingSet availableDigits targetSize =
      if startingSet.length = targetSize then [startingSet]
      else
        (pickOne availableDigits).flatMap fun pr =>
          larger_sets (insSortedBy natLe pr.1 startingSet) pr.2 targetSize := by
  cases availableDigits with
  | nil => by_cases h : startingSet.length = targetSize <;>
      simp [larger_sets, larger_setsAux, pickOne, h]
  | cons x xs =>
    by_cases h : startingSet.length = targetSize
    · simp [larger_sets, larger_setsAux, h]
    · rw [larger_sets]
      rw [List.length_cons, larger_setsAux]
      simp only [h, if_false]
      refine flatMap_congr fun pr hpr => ?_
      have hlen := pickOne_length hpr
      have h2 : pr.2.length = xs.length := by simp at hlen; omega
      rw [larger_sets, h2]

/-- Falling factorial p * (p-1) * ... * (p-m+1); zero when m exceeds p. -/
def descFac : Nat → Nat → Nat
  | _, 0 => 1
  | p, m + 1 => p * descFac (p - 1) m

/-- A partial design state, Rust `struct SteinerSearch` (lib.rs lines 52-57). -/
structure SteinerSearch where
  set : List (List Nat)
  unused_permutations : List (List Nat)
  used_permutations : List (List Nat)
deriving Repr, DecidableEq

/-- The search engine, Rust `struct SteinerSearcher` (lib.rs lines 59-69); see
the modelling notes at the top of the file for the dropped
`set_permutations` memo table and `observer` fields. -/
structure SteinerSearcher where
  t : Nat
  k : Nat
  n : Nat
  fringe : List SteinerSearch
  dead_ends : List (List (List Nat))
  explored : List (List (List Nat))
  i : Nat
deriving Repr, DecidableEq

/-- The body of `SteinerSearcher::new` (lib.rs lines 75-91) after the
parameter assertion: the frontier holds the single empty design whose
`unused_permutations` are all t-combinations of `1..=n`. -/
def mkSearcher (t k n : Nat) : SteinerSearcher :=
  { t := t, k := k, n := n
    fringe := [{ set := []
                 unused_permutations := permutations (List.range' 1 n) t
                 used_permutations := [] }]
    dead_ends := [], explored := [], i := 0 }

/-- `SteinerSearcher::new` (lib.rs lines 72-92): the
`assert!(t < k && k < n)` aborts construction unless t < k < n; the abort is
modelled as `none`. -/
def SteinerSearcher.new (t k n : Nat) : Option SteinerSearcher :=
  if t < k ∧ k < n then some (mkSearcher t k n) else none

/-- One expansion of a popped state: the body of the `flat_map` over
`0..steiner_set.unused_permutations.len()` in `SteinerSearcher::next`
(lib.rs lines 118-158). For each still-uncovered t-combination (position `i`
of `unused_permutations`, removed in the clone), for each candidate block
produced by `larger_sets` from the complement pool, the candidate is dropped
(`continue`) when the block's coverage meets `used_permutations` or when the
extended signature is already a known dead end or already explored; surviving
candidates move the block's coverage from unused to used. -/
def expand (t k n : Nat) (s : SteinerSearch) (dead expl : List (List (List Nat))) :
    List SteinerSearch :=
  (pickOne s.unused_permutations).flatMap fun pr =>
    let available := (List.range' 1 n).filter fun x => !(pr.1.contains x)
    (larger_sets pr.1 available k).filterMap fun lset =>
      let lsp := permutations lset t
      if s.used_permutations.any fun p => lsp.contains p then none
      else
        let newSet := insSortedBy lexLeN lset s.set
        if newSet ∈ dead ∨ newSet ∈ expl then none
        else some { set := newSet
                    unused_permutations := pr.2.filter fun p => !(lsp.contains p)
                    used_permutations := s.used_permutations ++ lsp }

/-- Stable insertion: `x` goes after every element at or below it. Folding it
over a list left to right is a stable comparison sort, modelling
`new_fringe.sort_by(|a, b| a.set.cmp(&b.set))` (lib.rs line 172). States with
equal signatures produced by one expansion are identical records, so every
comparison sort wrt this total order produces this same list. -/
def insertLe {α : Type} (le : α → α → Bool) (x : α) : List α → List α
  | [] => [x]
  | y :: ys => if le y x then y :: insertLe le x ys else x :: y :: ys

def sortByLe {α : Type} (le : α → α → Bool) : List α → List α
  | [] => []
  | x :: xs => insertLe le x (sortByLe le xs)

/-- Worker for `dedupBySig`: `a` is the most recently kept state; states whose
signature equals its signature are dropped. -/
def dedupBySigAux (a : SteinerSearch) : List SteinerSearch → List SteinerSearch
  | [] => []
  | b :: rest => if a.set = b.set then dedupBySigAux a rest else b :: dedupBySigAux b rest

/-- Rust `new_fringe.dedup_by(|a, b| a.set == b.set)` (lib.rs line 173):
of each run of consecutive states with equal signatures, keep the first. -/
def dedupBySig : List SteinerSearch → List SteinerSearch
  | [] => []
  | a :: rest => a :: dedupBySigAux a rest

/-- The `while let Some(steiner_set) = self.fringe.pop()` loop of
`Iterator::next` (lib.rs lines 108-178), driven all the way to frontier
exhaustion, i.e. the concatenation of every `next()` call of a full run.
`fringe` is stored top-of-stack first: `Vec::pop()` removes the head, and
`self.fringe.extend(new_fringe)` prepends the reversed new fringe (of the
pushed elements, the last pushed is popped first). Each recursive call is one
frontier pop and consumes one unit of fuel; `none` means the fuel ran out.
`sols` accumulates emitted solutions in emission order. `trace` is ghost
instrumentation recording (most recent first) the signature of every state
inserted into `explored`; it influences nothing. -/
def runAux : Nat → SteinerSearcher → List (List (List Nat)) → List (List (List Nat)) →
    Option (List (List (List Nat)) × SteinerSearcher × List (List (List Nat)))
  | 0, _, _, _ => none
  | fuel + 1, st, sols, trace =>
    match st.fringe with
    | [] => some (sols, st, trace)
    | s :: rest =>
      let st1 : SteinerSearcher := { st with fringe := rest, i := st.i + 1 }
      if s.set ∈ st1.explored then runAux fuel st1 sols trace
      else
        let st2 : SteinerSearcher := { st1 with explored := s.set :: st1.explored }
        if s.unused_permutations.isEmpty then
          runAux fuel st2 (sols ++ [s.set]) (s.set :: trace)
        else
          let nf := expand st2.t st2.k st2.n s st2.dead_ends st2.explored
          if nf.isEmpty then
            runAux fuel { st2 with dead_ends := s.set :: st2.dead_ends } sols (s.set :: trace)
          else
            runAux fuel
              { st2 with
                fringe :=
                  (dedupBySig (sortByLe (fun a b => lexLeSig a.set b.set) nf)).reverse
                    ++ st2.fringe }
              sols (s.set :: trace)

/-- The solutions of a full run from `new(t, k, n)` with the given fuel
(empty when construction would be rejected is not modelled here: this runs
from the unchecked `mkSearcher`; empty also when the fuel runs out). -/
def runSolutions (t k n fuel : Nat) : List (List (List Nat)) :=
  match runAux fuel (mkSearcher t k n) [] [] with
  | some r => r.1
  | none => []

/-- The ghost trace of a full run: signatures inserted into the explored
cache, in reverse insertion order ([] when the fuel runs out). -/
def expandedTrace (t k n fuel : Nat) : List (List (List Nat)) :=
  match runAux fuel (mkSearcher t k n) [] [] with
  | some r => r.2.2
  | none => []

/-! ### Properties of the combination generator -/

theorem permutations_zero {α : Type} (l : List α) : permutations l 0 = [[]] := by
  cases l <;> rfl

theorem permutations_nil_succ {α : Type} (s : Nat) : permutations ([] : List α) (s + 1) = [] :=
  rfl

theorem permutations_cons_succ {α : Type} (x : α) (xs : List α) (s : Nat) :
    permutations (x :: xs) (s + 1) =
      ((permutations xs s).map (fun p => x :: p)) ++ permutations xs (s + 1) := rfl

theorem length_permutations {α : Type} :
    ∀ (l : List α) (s : Nat), (permutations l s).length = l.length.choose s
  | _, 0 => by simp [permutations]
  | [], _ + 1 => by simp [permutations]
  | x :: xs, s + 1 => by
    simp only [permutations, List.length_append, List.length_map,
      length_permutations xs s, length_permutations xs (s + 1)]
    rw [List.length_cons, Nat.choose_succ_succ]

theorem permutations_gt_length {α : Type} {l : List α} {s : Nat}
    (h : l.length < s) : permutations l s = [] := by
  have hl := length_permutations l s
  rw [Nat.choose_eq_zero_of_lt h] at hl
  exact List.eq_nil_of_length_eq_zero hl

theorem mem_permutations_sublist {α : Type} :
    ∀ {l : List α} {s : Nat} {r : List α}, r ∈ permutations l s → r.Sublist l ∧ r.length = s
  | l, 0, r, h => by
    rw [permutations_zero] at h
    simp at h
    subst h
    exact ⟨List.nil_sublist l, rfl⟩
  | [], _ + 1, r, h => by simp [permutations] at h
  | x :: xs, s + 1, r, h => by
    simp only [permutations, List.mem_append, List.mem_map] at h
    rcases h with ⟨p, hp, rfl⟩ | h
    · rcases mem_permutations_sublist hp with ⟨hsub, hlen⟩
      exact ⟨List.cons_sublist_cons.mpr hsub, by simp [hlen]⟩
    · rcases mem_permutations_sublist h with ⟨hsub, hlen⟩
      exact ⟨hsub.cons x, hlen⟩

theorem sublist_mem_permutations {α : Type} {r l : List α} (h : r.Sublist l) :
    r ∈ permutations l r.length := by
  induction h with
  | slnil => rw [List.length_nil, permutations_zero]; exact List.mem_singleton.mpr rfl
  | @cons l₁ l₂ a h ih =>
    match l₁, ih with
    | [], _ => rw [List.length_nil, permutations_zero]; exact List.mem_singleton.mpr rfl
    | y :: ys, ih =>
      rw [List.length_cons, permutations_cons_succ, List.mem_append]
      exact Or.inr ih
  | @cons₂ l₁ l₂ a h ih =>
    rw [List.length_cons, permutations_cons_succ, List.mem_append, List.mem_map]
    exact Or.inl ⟨l₁, ih, rfl⟩

theorem nodup_permutations {α : Type} :
    ∀ (l : List α) (s : Nat), l.Nodup → (permutations l s).Nodup
  | _, 0, _ => by simp [permutations]
  | [], _ + 1, _ => by simp [permutations]
  | x :: xs, s + 1, hn => by
    rcases List.nodup_cons.mp hn with ⟨hx, hxs⟩
    simp only [permutations]
    refine List.Nodup.append ?_ (nodup_permutations xs (s + 1) hxs) ?_
    · exact (nodup_permutations xs s hxs).map fun a b hab => by
        simpa using hab
    · intro r hr hr2
      rcases List.mem_map.mp hr with ⟨p, _, rfl⟩
      have := (mem_permutations_sublist hr2).1
      exact hx (this.subset (List.mem_cons_self x p))

theorem sorted_of_mem_permutations {α : Type} {lt : α → α → Prop} {l : List α} {s : Nat}
    {r : List α} (hl : List.Pairwise lt l) (h : r ∈ permutations l s) : List.Pairwise lt r :=
  List.Pairwise.sublist (mem_permutations_sublist h).1 hl

theorem length_of_mem_permutations {α : Type} {l : List α} {s : Nat} {r : List α}
    (h : r ∈ permutations l s) : r.length = s := (mem_permutations_sublist h).2

/-! ### Properties of sorted insertion, the stable sort, and dedup -/

theorem insSortedBy_perm {α : Type} (le : α → α → Bool) (x : α) :
    ∀ (l : List α), (insSortedBy le x l).Perm (x :: l)
  | [] => List.Perm.refl _
  | y :: ys => by
    rw [insSortedBy]
    by_cases h : le x y
    · rw [if_pos h]
    · rw [if_neg h]
      exact ((insSortedBy_perm le x ys).cons y).trans (List.Perm.swap x y ys)

theorem insSortedBy_length {α : Type} (le : α → α → Bool) (x : α) (l : List α) :
    (insSortedBy le x l).length = l.length + 1 := by
  simpa using (insSortedBy_perm le x l).length_eq

theorem insSortedBy_mem {α : Type} {le : α → α → Bool} {x y : α} {l : List α} :
    y ∈ insSortedBy le x l ↔ y = x ∨ y ∈ l := by
  rw [((insSortedBy_perm le x l).mem_iff)]
  simp

theorem insSortedBy_sorted {x : Nat} : ∀ {l : List Nat}, List.Pairwise (· < ·) l → x ∉ l →
    List.Pairwise (· < ·) (insSortedBy natLe x l)
  | [], _, _ => by simp [insSortedBy]
  | y :: ys, hs, hx => by
    rcases List.pairwise_cons.mp hs with ⟨hy, hys⟩
    rw [insSortedBy]
    by_cases h : natLe x y
    · rw [if_pos h]
      have hxy : x < y := by
        have hne : x ≠ y := fun e => hx (e ▸ List.mem_cons_self x ys)
        simp [natLe] at h
        omega
      refine List.pairwise_cons.mpr ⟨?_, hs⟩
      intro b hb
      rcases List.mem_cons.mp hb with rfl | hb
      · exact hxy
      · exact lt_trans hxy (hy b hb)
    · rw [if_neg h]
      have hyx : y < x := by simp [natLe] at h; omega
      refine List.pairwise_cons.mpr
        ⟨?_, insSortedBy_sorted hys (fun hm => hx (List.mem_cons_of_mem y hm))⟩
      intro b hb
      rcases insSortedBy_mem.mp hb with rfl | hb
      · exact hyx
      · exact hy b hb

theorem pickOne_length_self {α : Type} : ∀ (l : List α), (pickOne l).length = l.length
  | [] => rfl
  | x :: xs => by simp [pickOne, pickOne_length_self xs]

theorem insertLe_perm {α : Type} (le : α → α → Bool) (x : α) :
    ∀ (l : List α), (insertLe le x l).Perm (x :: l)
  | [] => List.Perm.refl _
  | y :: ys => by
    rw [insertLe]
    by_cases h : le y x
    · rw [if_pos h]
      exact ((insertLe_perm le x ys).cons y).trans (List.Perm.swap x y ys)
    · rw [if_neg h]

theorem sortByLe_perm {α : Type} (le : α → α → Bool) : ∀ (l : List α), (sortByLe le l).Perm l
  | [] => List.Perm.refl _
  | x :: xs => (insertLe_perm le x (sortByLe le xs)).trans ((sortByLe_perm le xs).cons x)

theorem dedupBySigAux_sublist (a : SteinerSearch) :
    ∀ (l : List SteinerSearch), (dedupBySigAux a l).Sublist l
  | [] => List.Sublist.refl _
  | b :: rest => by
    rw [dedupBySigAux]
    by_cases h : a.set = b.set
    · rw [if_pos h]
      exact (dedupBySigAux_sublist a rest).cons b
    · rw [if_neg h]
      exact (dedupBySigAux_sublist b rest).cons₂ b

theorem dedupBySig_sublist : ∀ (l : List SteinerSearch), (dedupBySig l).Sublist l
  | [] => List.Sublist.refl _
  | a :: rest => (dedupBySigAux_sublist a rest).cons₂ a

/-! ### Properties of the superset expander -/

theorem sum_map_const {α : Type} {l : List α} {g : α → Nat} {c : Nat}
    (h : ∀ a ∈ l, g a = c) : (l.map g).sum = l.length * c := by
  induction l with
  | nil => simp
  | cons x xs ih =>
    simp only [List.map_cons, List.sum_cons, List.length_cons, h x (List.mem_cons_self x xs)]
    rw [ih fun a ha => h a (List.mem_cons_of_mem x ha)]
    ring

theorem length_larger_sets : ∀ (m : Nat) (S pool : List Nat) (sz : Nat), sz = S.length + m →
    (larger_sets S pool sz).length = descFac pool.length m := by
  intro m
  induction m with
  | zero =>
    intro S pool sz h
    rw [larger_sets_eq, if_pos (by omega)]
    rfl
  | succ m ih =>
    intro S pool sz h
    rw [larger_sets_eq, if_neg (by omega), List.length_flatMap, descFac,
      sum_map_const (c := descFac (pool.length - 1) m), pickOne_length_self]
    intro pr hpr
    have h1 := pickOne_length hpr
    have h2 := insSortedBy_length natLe pr.1 S
    simp only [Function.comp]
    rw [ih (insSortedBy natLe pr.1 S) pr.2 sz (by omega)]
    congr 1
    omega

theorem length_larger_sets_of_le {S pool : List Nat} {sz : Nat} (h : S.length ≤ sz) :
    (larger_sets S pool sz).length = descFac pool.length (sz - S.length) :=
  length_larger_sets (sz - S.length) S pool sz (by omega)

theorem length_of_mem_larger_sets_aux :
    ∀ (N : Nat) (pool S : List Nat) (sz : Nat), pool.length ≤ N →
      ∀ r ∈ larger_sets S pool sz, r.length = sz := by
  intro N
  induction N with
  | zero =>
    intro pool S sz hN r hr
    have hnil : pool = [] := List.eq_nil_of_length_eq_zero (by omega)
    subst hnil
    rw [larger_sets_eq] at hr
    by_cases h : S.length = sz
    · rw [if_pos h] at hr
      rw [List.mem_singleton.mp hr]
      exact h
    · rw [if_neg h] at hr
      simp [pickOne] at hr
  | succ N ih =>
    intro pool S sz hN r hr
    rw [larger_sets_eq] at hr
    by_cases h : S.length = sz
    · rw [if_pos h] at hr
      rw [List.mem_singleton.mp hr]
      exact h
    · rw [if_neg h] at hr
      rcases List.mem_flatMap.mp hr with ⟨pr, hpr, hrm⟩
      have h1 := pickOne_length hpr
      exact ih pr.2 (insSortedBy natLe pr.1 S) sz (by omega) r hrm

theorem length_of_mem_larger_sets {pool S : List Nat} {sz : Nat} {r : List Nat}
    (hr : r ∈ larger_sets S pool sz) : r.length = sz :=
  length_of_mem_larger_sets_aux pool.length pool S sz (Nat.le_refl _) r hr

theorem mem_larger_sets_props :
    ∀ (N : Nat) (pool S : List Nat) (sz : Nat), pool.length ≤ N →
      List.Pairwise (· < ·) S → pool.Nodup → (∀ x ∈ pool, x ∉ S) →
      ∀ r ∈ larger_sets S pool sz,
        List.Pairwise (· < ·) r ∧ S ⊆ r ∧ ∀ x ∈ r, x ∈ S ∨ x ∈ pool := by
  intro N
  induction N with
  | zero =>
    intro pool S sz hN hS _ _ r hr
    have hnil : pool = [] := List.eq_nil_of_length_eq_zero (by omega)
    subst hnil
    rw [larger_sets_eq] at hr
    by_cases h : S.length = sz
    · rw [if_pos h] at hr
      rw [List.mem_singleton.mp hr]
      exact ⟨hS, List.Subset.refl S, fun x hx => Or.inl hx⟩
    · rw [if_neg h] at hr
      simp [pickOne] at hr
  | succ N ih =>
    intro pool S sz hN hS hpn hdisj r hr
    rw [larger_sets_eq] at hr
    by_cases h : S.length = sz
    · rw [if_pos h] at hr
      rw [List.mem_singleton.mp hr]
      exact ⟨hS, List.Subset.refl S, fun x hx => Or.inl hx⟩
    · rw [if_neg h] at hr
      rcases List.mem_flatMap.mp hr with ⟨pr, hpr, hrm⟩
      have h1 := pickOne_length hpr
      have hperm := pickOne_perm hpr
      have hd1 : pr.1 ∈ pool := hperm.mem_iff.mpr (List.mem_cons_self pr.1 pr.2)
      have hco : (pr.1 :: pr.2).Nodup := hperm.nodup hpn
      rcases List.nodup_cons.mp hco with ⟨hd2, hd3⟩
      have hss : List.Pairwise (· < ·) (insSortedBy natLe pr.1 S) :=
        insSortedBy_sorted hS (hdisj pr.1 hd1)
      have hdisj2 : ∀ x ∈ pr.2, x ∉ insSortedBy natLe pr.1 S := by
        intro x hx hmem
        rcases insSortedBy_mem.mp hmem with rfl | hmem
        · exact hd2 hx
        · exact hdisj x (hperm.mem_iff.mpr (List.mem_cons_of_mem pr.1 hx)) hmem
      rcases ih pr.2 (insSortedBy natLe pr.1 S) sz (by omega) hss hd3 hdisj2 r hrm with
        ⟨hr1, hr2, hr3⟩
      refine ⟨hr1, fun x hx => hr2 (insSortedBy_mem.mpr (Or.inr hx)), ?_⟩
      intro x hx
      rcases hr3 x hx with hm | hm
      · rcases insSortedBy_mem.mp hm with rfl | hm
        · exact Or.inr hd1
        · exact Or.inl hm
      · exact Or.inr (hperm.mem_iff.mpr (List.mem_cons_of_mem pr.1 hm))

theorem larger_sets_props {pool S : List Nat} {sz : Nat}
    (hS : List.Pairwise (· < ·) S) (hpn : pool.Nodup) (hdisj : ∀ x ∈ pool, x ∉ S) :
    ∀ r ∈ larger_sets S pool sz,
      List.Pairwise (· < ·) r ∧ S ⊆ r ∧ ∀ x ∈ r, x ∈ S ∨ x ∈ pool :=
  mem_larger_sets_props pool.length pool S sz (Nat.le_refl _) hS hpn hdisj

/-! ### Claims about the two generator functions -/

/-- C3 (amended): for every input sequence and size, the combination
generator returns exactly C(|seq|, size) results, each a subsequence of seq
in seq's relative order with exactly the requested length; the result list is
duplicate-free whenever the input sequence is duplicate-free (on inputs with
a repeated element the result list repeats, see the counterexample); it
returns [[]] at size 0, and [] when size exceeds the input length. -/
theorem claim_C3_generate_combinations {α : Type} (seq : List α) (size : Nat) :
    (permutations seq size).length = seq.length.choose size ∧
      (∀ r ∈ permutations seq size, r.Sublist seq ∧ r.length = size) ∧
      (seq.Nodup → (permutations seq size).Nodup) ∧
      permutations seq 0 = [[]] ∧
      (seq.length < size → permutations seq size = []) :=
  ⟨length_permutations seq size,
   fun _ hr => mem_permutations_sublist hr,
   nodup_permutations seq size,
   permutations_zero seq,
   fun h => permutations_gt_length h⟩

theorem claim_C3_generate_combinations_witness :
    (permutations ([1, 2, 3] : List Nat) 2).length = Nat.choose 3 2 ∧
      (permutations ([1, 2, 3] : List Nat) 2).Nodup :=
  ⟨(claim_C3_generate_combinations [1, 2, 3] 2).1,
   (claim_C3_generate_combinations [1, 2, 3] 2).2.2.1 (by decide)⟩

/-- C3 counterexample: on an input sequence with a repeated element (size 1,
within bounds, so the claim applies and indeed promises C(2,1) = 2 results)
the generator returns the same result twice, refuting the unconditional
no-duplicate-results clause. -/
theorem claim_C3_counterexample :
    permutations ([1, 1] : List Nat) 1 = [[1], [1]] ∧
      ¬ (permutations ([1, 1] : List Nat) 1).Nodup := by
  exact ⟨rfl, by decide⟩

/-- C2 (amended): for a sorted duplicate-free subset S, a duplicate-free pool
disjoint from S, and a target size at or above |S|, the superset expander
returns exactly |pool| * (|pool| - 1) * ... * (|pool| - (k - |S|) + 1)
results (the falling factorial, counting ordered choices of the added
digits, not the C(|pool|, k - |S|) of the claim), each result a strictly
ascending (hence duplicate-free) k-element superset of S drawn from
S and the pool. The results are in general not pairwise distinct (one
arises per insertion order of the added digits). -/
theorem claim_C2_build_superset_candidates {S pool : List Nat} {k : Nat}
    (hS : List.Pairwise (· < ·) S) (hpn : pool.Nodup) (hdisj : ∀ x ∈ pool, x ∉ S)
    (hk : S.length ≤ k) :
    (larger_sets S pool k).length = descFac pool.length (k - S.length) ∧
      ∀ r ∈ larger_sets S pool k,
        List.Pairwise (· < ·) r ∧ r.Nodup ∧ r.length = k ∧ S ⊆ r ∧
          ∀ x ∈ r, x ∈ S ∨ x ∈ pool := by
  refine ⟨length_larger_sets_of_le hk, fun r hr => ?_⟩
  rcases larger_sets_props hS hpn hdisj r hr with ⟨h1, h2, h3⟩
  exact ⟨h1, h1.imp (fun hab => Nat.ne_of_lt hab),
    length_of_mem_larger_sets hr, h2, h3⟩

theorem claim_C2_build_superset_candidates_witness :
    (larger_sets [1] [2, 3] 3).length = descFac 2 2 :=
  (@claim_C2_build_superset_candidates [1] [2, 3] 3
    (by decide) (by decide) (by decide) (by decide)).1

/-- C2 counterexample: with S = [1] (a sorted 1-element subset), pool [2, 3]
disjoint from S, and target size k = 3 > 1, the expander returns the same
superset twice: 2 results instead of the claimed C(2, 2) = 1 distinct one. -/
theorem claim_C2_counterexample :
    larger_sets [1] [2, 3] 3 = [[1, 2, 3], [1, 2, 3]] ∧
      ¬ ((larger_sets [1] [2, 3] 3).length = Nat.choose 2 2 ∧
          (larger_sets [1] [2, 3] 3).Nodup) := by
  exact ⟨by decide, by decide⟩

/-! ### The exact-cover invariant of partial design states -/

/-- A design is an exact cover when every t-combination of the universe
1..=n is covered by (is a combination of) exactly one block of the design. -/
def exactCover (t n : Nat) (design : List (List Nat)) : Prop :=
  ∀ p ∈ permutations (List.range' 1 n) t,
    (design.countP fun b => decide (p ∈ permutations b t)) = 1

/-- The three state properties claimed for every partial design state:
uncovered and covered are disjoint; together they are exactly the full
target set of t-combinations (as multisets, hence with the right count);
and no t-combination is covered by two different blocks of the state. -/
def StateInv (t n : Nat) (s : SteinerSearch) : Prop :=
  (∀ p ∈ s.unused_permutations, p ∉ s.used_permutations) ∧
    ((s.unused_permutations : Multiset (List Nat)) +
        (s.used_permutations : Multiset (List Nat)) =
      (permutations (List.range' 1 n) t : Multiset (List Nat))) ∧
    List.Pairwise (fun b c => ∀ p ∈ permutations b t, p ∉ permutations c t) s.set

/-- The inductive well-formedness invariant maintained by the search: blocks
are strictly ascending k-subsets of the universe; the chosen blocks are
pairwise distinct; unused and used t-combinations partition the full target
set; and the used t-combinations are exactly the blocks' coverages. -/
structure FullInv (t k n : Nat) (s : SteinerSearch) : Prop where
  blocks_wf : ∀ b ∈ s.set,
    List.Pairwise (· < ·) b ∧ b.length = k ∧ ∀ x ∈ b, x ∈ List.range' 1 n
  set_nodup : s.set.Nodup
  partition :
    (s.unused_permutations : Multiset (List Nat)) +
        (s.used_permutations : Multiset (List Nat)) =
      (permutations (List.range' 1 n) t : Multiset (List Nat))
  used_eq :
    (s.used_permutations : Multiset (List Nat)) =
      (s.set : Multiset (List Nat)).bind fun b => (permutations b t : Multiset (List Nat))

theorem range'_sorted (n : Nat) : List.Pairwise (· < ·) (List.range' 1 n) :=
  List.pairwise_lt_range' 1 n 1

theorem allT_nodup (t n : Nat) : (permutations (List.range' 1 n) t).Nodup :=
  nodup_permutations _ t (List.nodup_range' 1 n)

theorem sorted_subset_sublist : ∀ {l₂ l₁ : List Nat}, List.Pairwise (· < ·) l₁ →
    List.Pairwise (· < ·) l₂ → l₁ ⊆ l₂ → l₁.Sublist l₂ := by
  intro l₂
  induction l₂ with
  | nil =>
    intro l₁ _ _ hsub
    rw [List.subset_nil.mp hsub]
  | cons y ys ih =>
    intro l₁ h1 h2 hsub
    rcases List.pairwise_cons.mp h2 with ⟨hy, hys⟩
    cases l₁ with
    | nil => exact List.nil_sublist _
    | cons x xs =>
      rcases List.pairwise_cons.mp h1 with ⟨hx, hxs⟩
      by_cases hxy : x = y
      · subst hxy
        refine List.cons_sublist_cons.mpr (ih hxs hys ?_)
        intro z hz
        rcases List.mem_cons.mp (hsub (List.mem_cons_of_mem x hz)) with rfl | h
        · exact absurd (hx z hz) (lt_irrefl z)
        · exact h
      · have hxys : x ∈ ys := by
          rcases List.mem_cons.mp (hsub (List.mem_cons_self x xs)) with h | h
          · exact absurd h hxy
          · exact h
        have hyx : y < x := hy x hxys
        refine List.Sublist.cons y (ih h1 hys ?_)
        intro z hz
        rcases List.mem_cons.mp (hsub hz) with rfl | h
        · rcases List.mem_cons.mp hz with rfl | hzz
          · exact absurd rfl hxy
          · exact absurd (lt_trans hyx (hx z hzz)) (lt_irrefl z)
        · exact h

/-- Completeness of the generator on sorted inputs: every strictly ascending
t-list over the universe is listed among the t-combinations. -/
theorem mem_allT_of_sorted {t n : Nat} {p : List Nat} (hp : List.Pairwise (· < ·) p)
    (hlen : p.length = t) (hsub : ∀ x ∈ p, x ∈ List.range' 1 n) :
    p ∈ permutations (List.range' 1 n) t := by
  have hsl : p.Sublist (List.range' 1 n) :=
    sorted_subset_sublist hp (range'_sorted n) (fun x hx => hsub x hx)
  have := sublist_mem_permutations hsl
  rwa [hlen] at this

/-- Every t-combination of a well-formed block is in the full target set. -/
theorem coverage_mem_allT {t n : Nat} {b : List Nat} (hb : List.Pairwise (· < ·) b)
    (hsub : ∀ x ∈ b, x ∈ List.range' 1 n) {p : List Nat}
    (hp : p ∈ permutations b t) : p ∈ permutations (List.range' 1 n) t := by
  rcases mem_permutations_sublist hp with ⟨hps, hpl⟩
  exact mem_allT_of_sorted (List.Pairwise.sublist hps hb) hpl
    (fun x hx => hsub x (hps.subset hx))

/-- A sorted t-subset of a sorted block is covered by the block. -/
theorem mem_coverage_of_subset {t : Nat} {p b : List Nat} (hp : List.Pairwise (· < ·) p)
    (hb : List.Pairwise (· < ·) b) (hsub : p ⊆ b) (hlen : p.length = t) :
    p ∈ permutations b t := by
  have := sublist_mem_permutations (sorted_subset_sublist hp hb hsub)
  rwa [hlen] at this

theorem nodup_flatMap_pairwise {α β : Type} {f : α → List β} :
    ∀ {l : List α}, (l.flatMap f).Nodup →
      l.Pairwise (fun a b => ∀ x ∈ f a, x ∉ f b)
  | [], _ => List.Pairwise.nil
  | a :: l, h => by
    rw [List.flatMap_cons] at h
    rcases List.nodup_append.mp h with ⟨_, h2, h3⟩
    refine List.pairwise_cons.mpr ⟨?_, nodup_flatMap_pairwise h2⟩
    intro b hb x hx hxb
    exact h3 hx (List.mem_flatMap.mpr ⟨b, hb, hxb⟩)

theorem FullInv.unused_used_nodup {t k n : Nat} {s : SteinerSearch} (h : FullInv t k n s) :
    s.unused_permutations.Nodup ∧ s.used_permutations.Nodup ∧
      ∀ p ∈ s.unused_permutations, p ∉ s.used_permutations := by
  have hA : ((s.unused_permutations : Multiset (List Nat)) +
      (s.used_permutations : Multiset (List Nat))).Nodup := by
    rw [h.partition]
    exact Multiset.coe_nodup.mpr (allT_nodup t n)
  rcases Multiset.nodup_add.mp hA with ⟨h1, h2, h3⟩
  exact ⟨Multiset.coe_nodup.mp h1, Multiset.coe_nodup.mp h2,
    fun p hp hq => Multiset.disjoint_left.mp h3 (Multiset.mem_coe.mpr hp) (Multiset.mem_coe.mpr hq)⟩

theorem FullInv.unused_wf {t k n : Nat} {s : SteinerSearch} (h : FullInv t k n s)
    {p : List Nat} (hp : p ∈ s.unused_permutations) :
    p ∈ permutations (List.range' 1 n) t := by
  have hm : p ∈ (s.unused_permutations : Multiset (List Nat)) +
      (s.used_permutations : Multiset (List Nat)) :=
    Multiset.mem_add.mpr (Or.inl (Multiset.mem_coe.mpr hp))
  rw [h.partition] at hm
  exact Multiset.mem_coe.mp hm

theorem FullInv.used_wf {t k n : Nat} {s : SteinerSearch} (h : FullInv t k n s)
    {p : List Nat} (hp : p ∈ s.used_permutations) :
    p ∈ permutations (List.range' 1 n) t := by
  have hm : p ∈ (s.unused_permutations : Multiset (List Nat)) +
      (s.used_permutations : Multiset (List Nat)) :=
    Multiset.mem_add.mpr (Or.inr (Multiset.mem_coe.mpr hp))
  rw [h.partition] at hm
  exact Multiset.mem_coe.mp hm

theorem FullInv.used_perm_flatMap {t k n : Nat} {s : SteinerSearch} (h : FullInv t k n s) :
    s.used_permutations.Perm (s.set.flatMap fun b => permutations b t) := by
  have he := h.used_eq
  rw [Multiset.coe_bind] at he
  exact Multiset.coe_eq_coe.mp he

theorem FullInv.toStateInv {t k n : Nat} {s : SteinerSearch} (h : FullInv t k n s) :
    StateInv t n s := by
  rcases h.unused_used_nodup with ⟨_, h2, h3⟩
  exact ⟨h3, h.partition, nodup_flatMap_pairwise (h.used_perm_flatMap.nodup h2)⟩

/-- Membership characterization of one expansion step: the produced states,
with the three `continue` guards spelled out. -/
theorem mem_expand {t k n : Nat} {s s2 : SteinerSearch} {dead expl : List (List (List Nat))} :
    s2 ∈ expand t k n s dead expl ↔
      ∃ pr ∈ pickOne s.unused_permutations,
        ∃ lset ∈ larger_sets pr.1
            ((List.range' 1 n).filter fun x => !(pr.1.contains x)) k,
          ¬ (s.used_permutations.any fun p => (permutations lset t).contains p) = true ∧
          insSortedBy lexLeN lset s.set ∉ dead ∧
          insSortedBy lexLeN lset s.set ∉ expl ∧
          s2 = { set := insSortedBy lexLeN lset s.set
                 unused_permutations := pr.2.filter fun p => !((permutations lset t).contains p)
                 used_permutations := s.used_permutations ++ permutations lset t } := by
  simp only [expand, List.mem_flatMap, List.mem_filterMap]
  constructor
  · rintro ⟨pr, hpr, lset, hlset, hsome⟩
    by_cases h1 : (s.used_permutations.any fun p => (permutations lset t).contains p) = true
    · rw [if_pos h1] at hsome
      cases hsome
    · rw [if_neg h1] at hsome
      by_cases h2 : insSortedBy lexLeN lset s.set ∈ dead ∨ insSortedBy lexLeN lset s.set ∈ expl
      · rw [if_pos h2] at hsome
        cases hsome
      · rw [if_neg h2] at hsome
        refine ⟨pr, hpr, lset, hlset, h1, fun hd => h2 (Or.inl hd), fun he => h2 (Or.inr he), ?_⟩
        exact (Option.some.inj hsome).symm
  · rintro ⟨pr, hpr, lset, hlset, h1, h2, h3, rfl⟩
    refine ⟨pr, hpr, lset, hlset, ?_⟩
    rw [if_neg h1, if_neg (by tauto)]

theorem filter_not_contains_eq (L : List (List Nat)) (l : List (List Nat)) :
    (l.filter fun p => !(L.contains p)) = l.filter fun p => decide (p ∉ L) := by
  refine List.filter_congr fun a _ => ?_
  by_cases h : a ∈ L <;> simp [h]

/-- Key preservation lemma: every candidate state produced by one expansion
of an invariant-satisfying state satisfies the invariant again. -/
theorem expand_preserves_inv {t k n : Nat} {s s2 : SteinerSearch}
    {dead expl : List (List (List Nat))} (hinv : FullInv t k n s)
    (hmem : s2 ∈ expand t k n s dead expl) : FullInv t k n s2 := by
  rcases mem_expand.mp hmem with ⟨pr, hpr, lset, hlset, hg, _, _, rfl⟩
  rcases hinv.unused_used_nodup with ⟨hUn, hVn, hdisjUV⟩
  have hperm := pickOne_perm hpr
  have hpr1_unused : pr.1 ∈ s.unused_permutations :=
    hperm.mem_iff.mpr (List.mem_cons_self _ _)
  have hpr1_allT : pr.1 ∈ permutations (List.range' 1 n) t := hinv.unused_wf hpr1_unused
  have hpr1_sorted : List.Pairwise (· < ·) pr.1 :=
    sorted_of_mem_permutations (range'_sorted n) hpr1_allT
  have hpr1_len : pr.1.length = t := length_of_mem_permutations hpr1_allT
  have hpr1_sub : pr.1 ⊆ List.range' 1 n := (mem_permutations_sublist hpr1_allT).1.subset
  have hpool_nodup : ((List.range' 1 n).filter fun x => !(pr.1.contains x)).Nodup :=
    (List.nodup_range' 1 n).filter _
  have hpool_disj : ∀ x ∈ (List.range' 1 n).filter fun x => !(pr.1.contains x), x ∉ pr.1 := by
    intro x hx
    have hx2 := (List.mem_filter.mp hx).2
    simpa using hx2
  rcases larger_sets_props hpr1_sorted hpool_nodup hpool_disj lset hlset with
    ⟨hb_sorted, hb_sup, hb_elems⟩
  have hb_len : lset.length = k := length_of_mem_larger_sets hlset
  have hb_univ : ∀ x ∈ lset, x ∈ List.range' 1 n := by
    intro x hx
    rcases hb_elems x hx with h | h
    · exact hpr1_sub h
    · exact (List.mem_filter.mp h).1
  have hlsp_allT : ∀ p ∈ permutations lset t, p ∈ permutations (List.range' 1 n) t :=
    fun p hp => coverage_mem_allT hb_sorted hb_univ hp
  have hlsp_nodup : (permutations lset t).Nodup :=
    nodup_permutations lset t (hb_sorted.imp fun hab => Nat.ne_of_lt hab)
  have hguard : ∀ p ∈ s.used_permutations, p ∉ permutations lset t := by
    intro p hp hpl
    exact hg (List.any_eq_true.mpr ⟨p, hp, by simpa using hpl⟩)
  have hlsp_unused : ∀ p ∈ permutations lset t, p ∈ s.unused_permutations := by
    intro p hp
    have hm : p ∈ (s.unused_permutations : Multiset (List Nat)) +
        (s.used_permutations : Multiset (List Nat)) := by
      rw [hinv.partition]
      exact Multiset.mem_coe.mpr (hlsp_allT p hp)
    rcases Multiset.mem_add.mp hm with h | h
    · exact Multiset.mem_coe.mp h
    · exact absurd hp (hguard p (Multiset.mem_coe.mp h))
  have hpr1_lsp : pr.1 ∈ permutations lset t :=
    mem_coverage_of_subset hpr1_sorted hb_sorted hb_sup hpr1_len
  have hset_perm := insSortedBy_perm lexLeN lset s.set
  have hB_not_mem : lset ∉ s.set := by
    intro hmem2
    have hused : pr.1 ∈ s.used_permutations :=
      hinv.used_perm_flatMap.mem_iff.mpr (List.mem_flatMap.mpr ⟨lset, hmem2, hpr1_lsp⟩)
    exact hdisjUV pr.1 hpr1_unused hused
  have hU : (s.unused_permutations : Multiset (List Nat)) =
      pr.1 ::ₘ (pr.2 : Multiset (List Nat)) := by
    exact_mod_cast Multiset.coe_eq_coe.mpr hperm
  have hL_eq : (permutations lset t : Multiset (List Nat)) =
      Multiset.filter (fun p => p ∈ permutations lset t)
        (s.unused_permutations : Multiset (List Nat)) := by
    rw [Multiset.Nodup.ext (Multiset.coe_nodup.mpr hlsp_nodup)
      (Multiset.Nodup.filter _ (Multiset.coe_nodup.mpr hUn))]
    intro a
    simp only [Multiset.mem_filter, Multiset.mem_coe]
    exact ⟨fun ha => ⟨hlsp_unused a ha, ha⟩, fun ha => ha.2⟩
  have hL_split : (permutations lset t : Multiset (List Nat)) =
      pr.1 ::ₘ Multiset.filter (fun p => p ∈ permutations lset t)
        (pr.2 : Multiset (List Nat)) := by
    rw [hL_eq, hU, Multiset.filter_cons_of_pos _ hpr1_lsp]
  have hfilter_coe :
      ((pr.2.filter fun p => !((permutations lset t).contains p)) : Multiset (List Nat)) =
        Multiset.filter (fun p => p ∉ permutations lset t) (pr.2 : Multiset (List Nat)) := by
    rw [filter_not_contains_eq, Multiset.filter_coe]
  refine FullInv.mk ?_ ?_ ?_ ?_
  · intro b hb
    rcases insSortedBy_mem.mp hb with rfl | hb
    · exact ⟨hb_sorted, hb_len, hb_univ⟩
    · exact hinv.blocks_wf b hb
  · exact hset_perm.symm.nodup (List.nodup_cons.mpr ⟨hB_not_mem, hinv.set_nodup⟩)
  · show ((pr.2.filter fun p => !((permutations lset t).contains p)) : Multiset (List Nat)) +
        ((s.used_permutations ++ permutations lset t : List (List Nat)) : Multiset (List Nat)) =
      (permutations (List.range' 1 n) t : Multiset (List Nat))
    rw [hfilter_coe, ← Multiset.coe_add, ← hinv.partition, hL_split, hU]
    nth_rewrite 3 [← Multiset.filter_add_not (fun p => p ∈ permutations lset t)
      (pr.2 : Multiset (List Nat))]
    rw [← Multiset.singleton_add, ← Multiset.singleton_add]
    abel
  · show ((s.used_permutations ++ permutations lset t : List (List Nat)) : Multiset (List Nat)) =
      ((insSortedBy lexLeN lset s.set : List (List Nat)) : Multiset (List Nat)).bind
        fun b => (permutations b t : Multiset (List Nat))
    have hs2 : ((insSortedBy lexLeN lset s.set : List (List Nat)) : Multiset (List Nat)) =
        lset ::ₘ (s.set : Multiset (List Nat)) := by
      exact_mod_cast Multiset.coe_eq_coe.mpr hset_perm
    rw [hs2, Multiset.cons_bind, ← hinv.used_eq, ← Multiset.coe_add, add_comm]

theorem countP_eq_sum_map {α : Type} (pred : α → Bool) :
    ∀ (l : List α), l.countP pred = (l.map fun a => if pred a then 1 else 0).sum
  | [] => rfl
  | x :: xs => by
    rw [List.countP_cons, List.map_cons, List.sum_cons, countP_eq_sum_map pred xs]
    by_cases h : pred x
    · simp [h]
      omega
    · simp [h]

/-- A state satisfying the invariant whose uncovered list is empty is an
exact cover, and its block count times C(k,t) is exactly C(n,t). -/
theorem solution_props {t k n : Nat} {s : SteinerSearch} (hinv : FullInv t k n s)
    (hempty : s.unused_permutations = []) :
    exactCover t n s.set ∧ s.set.length * Nat.choose k t = Nat.choose n t := by
  have hp := hinv.partition
  rw [hempty] at hp
  simp only [Multiset.coe_nil, zero_add] at hp
  have hVA : s.used_permutations.Perm (permutations (List.range' 1 n) t) :=
    Multiset.coe_eq_coe.mp hp
  have hflat := hinv.used_perm_flatMap
  have hFA : (s.set.flatMap fun b => permutations b t).Perm
      (permutations (List.range' 1 n) t) := hflat.symm.trans hVA
  have hAllnodup := allT_nodup t n
  constructor
  · intro p hpmem
    have hM : ((s.set.flatMap fun b => permutations b t : List (List Nat)) :
        Multiset (List Nat)) = (permutations (List.range' 1 n) t : Multiset (List Nat)) :=
      Multiset.coe_eq_coe.mpr hFA
    have hcnt : Multiset.count p ((s.set : Multiset (List Nat)).bind
        fun b => (permutations b t : Multiset (List Nat))) = 1 := by
      rw [Multiset.coe_bind, hM,
        Multiset.count_eq_of_nodup (Multiset.coe_nodup.mpr hAllnodup)]
      simp [hpmem]
    rw [Multiset.count_bind, Multiset.map_coe, Multiset.sum_coe] at hcnt
    have hcong : ∀ b ∈ s.set,
        (fun a => if (fun b => decide (p ∈ permutations b t)) a = true then 1 else 0) b =
          (fun b => Multiset.count p
            ((permutations b t : List (List Nat)) : Multiset (List Nat))) b := by
      intro b hb
      have hbn : ((permutations b t : List (List Nat)) : Multiset (List Nat)).Nodup :=
        Multiset.coe_nodup.mpr
          (nodup_permutations _ _ ((hinv.blocks_wf b hb).1.imp fun h => Nat.ne_of_lt h))
      show (if decide (p ∈ permutations b t) = true then 1 else 0) =
        Multiset.count p ((permutations b t : List (List Nat)) : Multiset (List Nat))
      rw [Multiset.count_eq_of_nodup hbn]
      by_cases hm : p ∈ permutations b t
      · simp [hm]
      · simp [hm]
    rw [countP_eq_sum_map, List.map_congr_left hcong]
    exact hcnt
  · have h1 : s.used_permutations.length = (permutations (List.range' 1 n) t).length :=
      hVA.length_eq
    have h2 : s.used_permutations.length =
        (s.set.flatMap fun b => permutations b t).length := hflat.length_eq
    rw [List.length_flatMap,
      sum_map_const (c := Nat.choose k t) ?_] at h2
    · rw [length_permutations, List.length_range'] at h1
      rw [← h2, h1]
    · intro b hb
      simp only [Function.comp]
      rw [length_permutations, (hinv.blocks_wf b hb).2.1]

/-! ### The run-level invariant and the master lemma about full runs -/

/-- Searcher-level invariant: the parameter fields are as constructed, every
frontier state satisfies the state invariant, and the explored cache holds
well-formed signatures with no duplicates. -/
structure SearcherInv (t k n : Nat) (st : SteinerSearcher) : Prop where
  ht : st.t = t
  hk : st.k = k
  hn : st.n = n
  fringe_inv : ∀ s ∈ st.fringe, FullInv t k n s
  explored_nodup : st.explored.Nodup
  explored_wf : ∀ g ∈ st.explored, g.Nodup ∧ ∀ b ∈ g,
    List.Pairwise (· < ·) b ∧ b.length = k ∧ ∀ x ∈ b, x ∈ List.range' 1 n

theorem mkSearcher_inv (t k n : Nat) : SearcherInv t k n (mkSearcher t k n) := by
  refine ⟨rfl, rfl, rfl, ?_, List.nodup_nil, by simp [mkSearcher]⟩
  intro s hs
  rw [mkSearcher, List.mem_singleton] at hs
  subst hs
  exact ⟨by simp, List.nodup_nil, by simp, by simp⟩

/-- Master lemma about a successful run segment: the final explored cache
extends the initial one exactly by the (ghost) trace of newly explored
signatures; the final solution list extends the accumulator by solutions
whose signatures occur among the new trace in order; exploration never
duplicates a signature; and every new solution is an exact cover with the
forced block count. -/
theorem runAux_master {t k n : Nat} :
    ∀ (fuel : Nat) {st st2 : SteinerSearcher}
      {sols trace ds tr : List (List (List Nat))},
      runAux fuel st sols trace = some (ds, st2, tr) →
      SearcherInv t k n st →
      ∃ newTr newSols,
        tr = newTr ++ trace ∧
        st2.explored = newTr ++ st.explored ∧
        ds = sols ++ newSols ∧
        newSols.Sublist newTr.reverse ∧
        (st.explored.Nodup → (newTr ++ st.explored).Nodup) ∧
        (∀ d ∈ newSols, exactCover t n d ∧ d.length * Nat.choose k t = Nat.choose n t) := by
  intro fuel
  induction fuel with
  | zero =>
    intro st st2 sols trace ds tr hrun
    cases hrun
  | succ fuel ih =>
    intro st st2 sols trace ds tr hrun hSI
    rw [runAux] at hrun
    cases hf : st.fringe with
    | nil =>
      rw [hf] at hrun
      dsimp only at hrun
      rw [Option.some.injEq, Prod.mk.injEq, Prod.mk.injEq] at hrun
      rcases hrun with ⟨rfl, rfl, rfl⟩
      exact ⟨[], [], rfl, rfl, by simp, List.nil_sublist _, fun h => h, by simp⟩
    | cons s rest =>
      rw [hf] at hrun
      dsimp only at hrun
      have hs_inv : FullInv t k n s := hSI.fringe_inv s (hf ▸ List.mem_cons_self s rest)
      have hrest_inv : ∀ x ∈ rest, FullInv t k n x :=
        fun x hx => hSI.fringe_inv x (hf ▸ List.mem_cons_of_mem s hx)
      by_cases h1 : s.set ∈ st.explored
      · rw [if_pos h1] at hrun
        rcases ih hrun
          ⟨hSI.ht, hSI.hk, hSI.hn, hrest_inv, hSI.explored_nodup, hSI.explored_wf⟩ with
          ⟨newTr, newSols, htr, hexp, hds, hsl, hnd, hprops⟩
        exact ⟨newTr, newSols, htr, hexp, hds, hsl, hnd, hprops⟩
      · rw [if_neg h1] at hrun
        have hexp_nodup2 : (s.set :: st.explored).Nodup :=
          List.nodup_cons.mpr ⟨h1, hSI.explored_nodup⟩
        have hexp_wf2 : ∀ g ∈ s.set :: st.explored, g.Nodup ∧ ∀ b ∈ g,
            List.Pairwise (· < ·) b ∧ b.length = k ∧ ∀ x ∈ b, x ∈ List.range' 1 n := by
          intro g hg
          rcases List.mem_cons.mp hg with rfl | hg
          · exact ⟨hs_inv.set_nodup, hs_inv.blocks_wf⟩
          · exact hSI.explored_wf g hg
        by_cases h2 : s.unused_permutations.isEmpty
        · rw [if_pos h2] at hrun
          rcases ih hrun
            ⟨hSI.ht, hSI.hk, hSI.hn, hrest_inv, hexp_nodup2, hexp_wf2⟩ with
            ⟨newTr, newSols, htr, hexp, hds, hsl, hnd, hprops⟩
          have hempty : s.unused_permutations = [] := List.isEmpty_iff.mp h2
          refine ⟨newTr ++ [s.set], s.set :: newSols, ?_, ?_, ?_, ?_, ?_, ?_⟩
          · rw [htr, List.append_assoc]
            rfl
          · rw [hexp, List.append_assoc]
            rfl
          · rw [hds, List.append_assoc]
            rfl
          · rw [List.reverse_append]
            exact (List.cons_sublist_cons).mpr hsl
          · intro hnod
            have := hnd hexp_nodup2
            rw [List.append_assoc]
            exact this
          · intro d hd
            rcases List.mem_cons.mp hd with rfl | hd
            · exact solution_props hs_inv hempty
            · exact hprops d hd
        · rw [if_neg h2] at hrun
          by_cases h3 : (expand st.t st.k st.n s st.dead_ends (s.set :: st.explored)).isEmpty
          · rw [if_pos h3] at hrun
            rcases ih hrun
              ⟨hSI.ht, hSI.hk, hSI.hn, hrest_inv, hexp_nodup2, hexp_wf2⟩ with
              ⟨newTr, newSols, htr, hexp, hds, hsl, hnd, hprops⟩
            refine ⟨newTr ++ [s.set], newSols, ?_, ?_, hds, ?_, ?_, hprops⟩
            · rw [htr, List.append_assoc]
              rfl
            · rw [hexp, List.append_assoc]
              rfl
            · rw [List.reverse_append]
              exact hsl.cons s.set
            · intro hnod
              have := hnd hexp_nodup2
              rw [List.append_assoc]
              exact this
          · rw [if_neg h3] at hrun
            have hfr_inv : ∀ x ∈ (dedupBySig (sortByLe (fun a b => lexLeSig a.set b.set)
                (expand st.t st.k st.n s st.dead_ends (s.set :: st.explored)))).reverse ++ rest,
                FullInv t k n x := by
              intro x hx
              rcases List.mem_append.mp hx with hx | hx
              · rw [List.mem_reverse] at hx
                have hx2 := (dedupBySig_sublist _).subset hx
                have hx3 := (sortByLe_perm _ _).subset hx2
                rw [hSI.ht, hSI.hk, hSI.hn] at hx3
                exact expand_preserves_inv hs_inv hx3
              · exact hrest_inv x hx
            rcases ih hrun
              ⟨hSI.ht, hSI.hk, hSI.hn, hfr_inv, hexp_nodup2, hexp_wf2⟩ with
              ⟨newTr, newSols, htr, hexp, hds, hsl, hnd, hprops⟩
            refine ⟨newTr ++ [s.set], newSols, ?_, ?_, hds, ?_, ?_, hprops⟩
            · rw [htr, List.append_assoc]
              rfl
            · rw [hexp, List.append_assoc]
              rfl
            · rw [List.reverse_append]
              exact hsl.cons s.set
            · intro hnod
              have := hnd hexp_nodup2
              rw [List.append_assoc]
              exact this

/-! ### Claims about the search engine -/

/-- C1: every design emitted by the search is an exact cover — each
t-combination of 1..=n is covered by exactly one block — and the number of
blocks is exactly C(n,t) / C(k,t), the division being exact. -/
theorem claim_C1_emitted_designs_exact_cover {t k n fuel : Nat} (ht : t < k)
    {d : List (List Nat)} (hd : d ∈ runSolutions t k n fuel) :
    exactCover t n d ∧ d.length * Nat.choose k t = Nat.choose n t ∧
      d.length = Nat.choose n t / Nat.choose k t := by
  rw [runSolutions] at hd
  cases hrun : runAux fuel (mkSearcher t k n) [] [] with
  | none =>
    rw [hrun] at hd
    cases hd
  | some r =>
    rw [hrun] at hd
    obtain ⟨ds, st2, tr⟩ := r
    rcases runAux_master fuel hrun (mkSearcher_inv t k n) with
      ⟨nt, ns, _, _, hds, _, _, hprops⟩
    dsimp only at hd
    rw [hds, List.nil_append] at hd
    rcases hprops d hd with ⟨hco, hcnt⟩
    refine ⟨hco, hcnt, ?_⟩
    exact (Nat.div_eq_of_eq_mul_left (Nat.choose_pos (Nat.le_of_lt ht)) hcnt.symm).symm

theorem claim_C1_emitted_designs_exact_cover_witness :
    exactCover 1 4 [[1, 2], [3, 4]] ∧
      ([[1, 2], [3, 4]] : List (List Nat)).length * Nat.choose 2 1 = Nat.choose 4 1 ∧
      ([[1, 2], [3, 4]] : List (List Nat)).length = Nat.choose 4 1 / Nat.choose 2 1 :=
  @claim_C1_emitted_designs_exact_cover 1 2 4 20 (by decide) [[1, 2], [3, 4]] (by decide)

/-- C4: construction fails exactly when t < k < n fails (modelled as `none`);
in particular new(3, 2, 5) fails; and on success the frontier holds the
single empty design whose uncovered list has exactly C(n,t) entries, namely
precisely the t-element subsequences of 1..=n. -/
theorem claim_C4_new_search (t k n : Nat) :
    ((SteinerSearcher.new t k n).isSome ↔ t < k ∧ k < n) ∧
      SteinerSearcher.new 3 2 5 = none ∧
      ∀ se, SteinerSearcher.new t k n = some se →
        se.fringe = [{ set := [], unused_permutations := permutations (List.range' 1 n) t,
                       used_permutations := [] }] ∧
        ∀ s ∈ se.fringe, s.unused_permutations.length = Nat.choose n t ∧
          ∀ p, p ∈ s.unused_permutations ↔ p.Sublist (List.range' 1 n) ∧ p.length = t := by
  refine ⟨?_, by decide, ?_⟩
  · by_cases h : t < k ∧ k < n <;> simp [SteinerSearcher.new, h]
  · intro se hse
    rw [SteinerSearcher.new] at hse
    by_cases h : t < k ∧ k < n
    · rw [if_pos h, Option.some.injEq] at hse
      subst hse
      refine ⟨rfl, ?_⟩
      intro s hs
      rw [mkSearcher, List.mem_singleton] at hs
      subst hs
      refine ⟨by rw [length_permutations, List.length_range'], ?_⟩
      intro p
      constructor
      · exact fun hp => mem_permutations_sublist hp
      · intro ⟨hsl, hlen⟩
        have := sublist_mem_permutations hsl
        rwa [hlen] at this
    · rw [if_neg h] at hse
      cases hse

theorem claim_C4_new_search_witness :
    (SteinerSearcher.new 1 2 4).isSome ∧ SteinerSearcher.new 3 2 5 = none :=
  ⟨(claim_C4_new_search 1 2 4).1.mpr (by decide), (claim_C4_new_search 1 2 4).2.1⟩

/-- C5: every state the engine ever creates satisfies the exact-cover state
invariant: the initial frontier state satisfies it, and every candidate state
produced by an expansion step from a state satisfying the (stronger,
inductive) well-formedness invariant satisfies both again — which closes the
induction over everything ever pushed onto the frontier. -/
theorem claim_C5_state_invariant (t k n : Nat) :
    (∀ s ∈ (mkSearcher t k n).fringe, StateInv t n s ∧ FullInv t k n s) ∧
      ∀ (s : SteinerSearch) (dead expl : List (List (List Nat))), FullInv t k n s →
        ∀ s2 ∈ expand t k n s dead expl, StateInv t n s2 ∧ FullInv t k n s2 := by
  constructor
  · intro s hs
    have hinv := (mkSearcher_inv t k n).fringe_inv s hs
    exact ⟨hinv.toStateInv, hinv⟩
  · intro s dead expl hinv s2 hs2
    have h2 := expand_preserves_inv hinv hs2
    exact ⟨h2.toStateInv, h2⟩

theorem claim_C5_state_invariant_witness :
    StateInv 1 4 { set := [], unused_permutations := permutations (List.range' 1 4) 1,
                   used_permutations := [] } :=
  ((claim_C5_state_invariant 1 2 4).1 _ (by rw [mkSearcher]; exact List.mem_singleton.mpr rfl)).1

/-- C6: the search is deterministic — the embedded semantics is a pure
function of the construction parameters (the source's only non-pure inputs,
hash-set iteration order and the wall-clock observer, are never observed by
the search), so two searchers independently constructed from the same
(t, k, n) and driven with the same fuel produce identical solutions in the
same order, identical final state and identical trace. -/
theorem claim_C6_deterministic {t k n : Nat} {se1 se2 : SteinerSearcher}
    (h1 : SteinerSearcher.new t k n = some se1)
    (h2 : SteinerSearcher.new t k n = some se2) (fuel : Nat) :
    runAux fuel se1 [] [] = runAux fuel se2 [] [] := by
  rw [Option.some.inj (h1.symm.trans h2)]

theorem claim_C6_deterministic_witness :
    runAux 20 (mkSearcher 1 2 4) [] [] = runAux 20 (mkSearcher 1 2 4) [] [] :=
  @claim_C6_deterministic 1 2 4 (mkSearcher 1 2 4) (mkSearcher 1 2 4)
    (by rw [SteinerSearcher.new, if_pos (by decide)])
    (by rw [SteinerSearcher.new, if_pos (by decide)]) 20

/-- C7: across a full run, no blocks-signature is ever expanded twice: the
trace of signatures inserted into the explored cache (one insertion per
state that is popped and processed rather than discarded) has no
duplicates. -/
theorem claim_C7_no_reexpansion (t k n fuel : Nat) : (expandedTrace t k n fuel).Nodup := by
  rw [expandedTrace]
  cases hrun : runAux fuel (mkSearcher t k n) [] [] with
  | none => exact List.nodup_nil
  | some r =>
    obtain ⟨ds, st2, tr⟩ := r
    rcases runAux_master fuel hrun (mkSearcher_inv t k n) with
      ⟨nt, ns, htr, _, _, _, hnd, _⟩
    dsimp only
    rw [htr, List.append_nil]
    have h2 := hnd List.nodup_nil
    simpa [mkSearcher] using h2

/-- C10: the iterator never yields the same design twice: the solutions of a
full run are pairwise distinct, because each solution's signature enters the
explored cache when its state is popped (before it is returned) and any
later state with the same signature is discarded. -/
theorem claim_C10_no_duplicate_solutions (t k n fuel : Nat) :
    (runSolutions t k n fuel).Nodup := by
  rw [runSolutions]
  cases hrun : runAux fuel (mkSearcher t k n) [] [] with
  | none => exact List.nodup_nil
  | some r =>
    obtain ⟨ds, st2, tr⟩ := r
    rcases runAux_master fuel hrun (mkSearcher_inv t k n) with
      ⟨nt, ns, _, _, hds, hsl, hnd, _⟩
    dsimp only
    rw [hds, List.nil_append]
    have h2 := hnd List.nodup_nil
    have h3 : nt.Nodup := by simpa [mkSearcher] using h2
    exact hsl.nodup (List.nodup_reverse.mpr h3)

/-- C9: the search for parameters (1, 2, 4), run to exhaustion (within the
given fuel, whose sufficiency the first conjunct asserts), yields the three
perfect matchings of 1..4 among its designs; every yielded design has
exactly 2 blocks and never repeats an element across its blocks. -/
theorem claim_C9_scenario_1_2_4 :
    (runAux 20 (mkSearcher 1 2 4) [] []).isSome = true ∧
      [[1, 2], [3, 4]] ∈ runSolutions 1 2 4 20 ∧
      [[1, 3], [2, 4]] ∈ runSolutions 1 2 4 20 ∧
      [[1, 4], [2, 3]] ∈ runSolutions 1 2 4 20 ∧
      ∀ d ∈ runSolutions 1 2 4 20, d.length = 2 ∧ (d.flatMap id).Nodup := by
  decide

/-! ### Termination: a measure bounds the number of frontier pops -/

theorem descFac_mono : ∀ (m p q : Nat), p ≤ q → descFac p m ≤ descFac q m
  | 0, _, _, _ => Nat.le_refl 1
  | m + 1, p, q, h => by
    rw [descFac, descFac]
    exact Nat.mul_le_mul h (descFac_mono m (p - 1) (q - 1) (by omega))

theorem sum_map_le {α : Type} {l : List α} {g : α → Nat} {c : Nat}
    (h : ∀ a ∈ l, g a ≤ c) : (l.map g).sum ≤ l.length * c := by
  induction l with
  | nil => simp
  | cons x xs ih =>
    simp only [List.map_cons, List.sum_cons, List.length_cons]
    have h1 := h x (List.mem_cons_self x xs)
    have h2 := ih fun a ha => h a (List.mem_cons_of_mem x ha)
    calc g x + (xs.map g).sum ≤ c + xs.length * c := Nat.add_le_add h1 h2
      _ = (xs.length + 1) * c := by ring

theorem nodup_subset_length_le {α : Type} [DecidableEq α] {l L : List α}
    (hnd : l.Nodup) (hsub : ∀ x ∈ l, x ∈ L) : l.length ≤ L.length :=
  calc l.length = l.toFinset.card := (List.toFinset_card_of_nodup hnd).symm
    _ ≤ L.toFinset.card := Finset.card_le_card
        (fun x hx => List.mem_toFinset.mpr (hsub x (List.mem_toFinset.mp hx)))
    _ ≤ L.length := List.toFinset_card_le L

/-- All possible blocks: the k-combinations of the universe. -/
def blockList (n k : Nat) : List (List Nat) := permutations (List.range' 1 n) k

/-- A finite enumeration containing every duplicate-free list of blocks;
every signature the engine ever stores is one of these. -/
def allSigs (n k : Nat) : List (List (List Nat)) :=
  (blockList n k).sublists.flatMap List.permutations

def sigBound (n k : Nat) : Nat := (allSigs n k).length

theorem mem_allSigs {n k : Nat} {g : List (List Nat)} (hnd : g.Nodup)
    (hsub : ∀ b ∈ g, b ∈ blockList n k) : g ∈ allSigs n k := by
  obtain ⟨l, hl1, hl2⟩ := hnd.subperm (fun b hb => hsub b hb)
  exact List.mem_flatMap.mpr
    ⟨l, List.mem_sublists.mpr hl2, List.mem_permutations.mpr hl1.symm⟩

theorem expand_length_le {t k n : Nat} {s : SteinerSearch}
    {dead expl : List (List (List Nat))} (hinv : FullInv t k n s) (htk : t ≤ k) :
    (expand t k n s dead expl).length ≤
      s.unused_permutations.length * descFac n (k - t) := by
  rw [expand, List.length_flatMap]
  refine le_trans (sum_map_le (c := descFac n (k - t)) ?_) ?_
  · intro pr hpr
    simp only [Function.comp]
    refine le_trans (List.length_filterMap_le _ _) ?_
    have hmem : pr.1 ∈ s.unused_permutations :=
      (pickOne_perm hpr).mem_iff.mpr (List.mem_cons_self _ _)
    have hlen : pr.1.length = t :=
      length_of_mem_permutations (hinv.unused_wf hmem)
    rw [length_larger_sets_of_le (by omega : pr.1.length ≤ k), hlen]
    refine descFac_mono _ _ _ ?_
    exact le_trans (List.length_filter_le _ _)
      (le_of_eq (by simp : (List.range' 1 n).length = n))
  · rw [pickOne_length_self]

/-- Fuel sufficiency: with the measure `fringe length + (bound on pushes per
expansion + 1) * (number of signatures not yet explored)` below the fuel, the
run completes. Every loop iteration strictly decreases the measure: a
discarded duplicate pops one state; an expansion marks one more of the
finitely many signatures explored and pushes at most
C(n,t) * descFac n (k-t) new states. -/
theorem runAux_isSome {t k n : Nat} (htk : t ≤ k) :
    ∀ (fuel : Nat) (st : SteinerSearcher) (sols trace : List (List (List Nat))),
      SearcherInv t k n st →
      st.fringe.length + (Nat.choose n t * descFac n (k - t) + 1) *
          (sigBound n k - st.explored.length) < fuel →
      (runAux fuel st sols trace).isSome = true := by
  intro fuel
  induction fuel with
  | zero =>
    intro st sols trace _ h
    omega
  | succ fuel ih =>
    intro st sols trace hSI hphi
    rw [runAux]
    cases hf : st.fringe with
    | nil => rfl
    | cons s rest =>
      rw [hf] at hphi
      rw [List.length_cons] at hphi
      dsimp only
      have hs_inv : FullInv t k n s := hSI.fringe_inv s (hf ▸ List.mem_cons_self s rest)
      have hrest_inv : ∀ x ∈ rest, FullInv t k n x :=
        fun x hx => hSI.fringe_inv x (hf ▸ List.mem_cons_of_mem s hx)
      by_cases h1 : s.set ∈ st.explored
      · rw [if_pos h1]
        refine ih _ sols trace
          ⟨hSI.ht, hSI.hk, hSI.hn, hrest_inv, hSI.explored_nodup, hSI.explored_wf⟩ ?_
        dsimp only
        omega
      · rw [if_neg h1]
        have hexp_nodup2 : (s.set :: st.explored).Nodup :=
          List.nodup_cons.mpr ⟨h1, hSI.explored_nodup⟩
        have hexp_wf2 : ∀ g ∈ s.set :: st.explored, g.Nodup ∧ ∀ b ∈ g,
            List.Pairwise (· < ·) b ∧ b.length = k ∧ ∀ x ∈ b, x ∈ List.range' 1 n := by
          intro g hg
          rcases List.mem_cons.mp hg with rfl | hg
          · exact ⟨hs_inv.set_nodup, hs_inv.blocks_wf⟩
          · exact hSI.explored_wf g hg
        have hsig_mem : ∀ g ∈ s.set :: st.explored, g ∈ allSigs n k := by
          intro g hg
          rcases hexp_wf2 g hg with ⟨hgnd, hgwf⟩
          refine mem_allSigs hgnd ?_
          intro b hb
          rcases hgwf b hb with ⟨hb1, hb2, hb3⟩
          exact mem_allT_of_sorted hb1 hb2 hb3
        have hecount : st.explored.length + 1 ≤ sigBound n k := by
          have := nodup_subset_length_le hexp_nodup2 hsig_mem
          rw [List.length_cons] at this
          exact this
        have hmul : (Nat.choose n t * descFac n (k - t) + 1) *
            (sigBound n k - st.explored.length) =
            (Nat.choose n t * descFac n (k - t) + 1) *
              (sigBound n k - (st.explored.length + 1)) +
              (Nat.choose n t * descFac n (k - t) + 1) := by
          rw [← Nat.mul_succ]
          congr 1
          omega
        by_cases h2 : s.unused_permutations.isEmpty
        · rw [if_pos h2]
          refine ih _ _ _
            ⟨hSI.ht, hSI.hk, hSI.hn, hrest_inv, hexp_nodup2, hexp_wf2⟩ ?_
          dsimp only
          rw [List.length_cons]
          omega
        · rw [if_neg h2]
          by_cases h3 : (expand st.t st.k st.n s st.dead_ends (s.set :: st.explored)).isEmpty
          · rw [if_pos h3]
            refine ih _ _ _
              ⟨hSI.ht, hSI.hk, hSI.hn, hrest_inv, hexp_nodup2, hexp_wf2⟩ ?_
            dsimp only
            rw [List.length_cons]
            omega
          · rw [if_neg h3]
            have hfr_inv : ∀ x ∈ (dedupBySig (sortByLe (fun a b => lexLeSig a.set b.set)
                (expand st.t st.k st.n s st.dead_ends (s.set :: st.explored)))).reverse ++ rest,
                FullInv t k n x := by
              intro x hx
              rcases List.mem_append.mp hx with hx | hx
              · rw [List.mem_reverse] at hx
                have hx2 := (dedupBySig_sublist _).subset hx
                have hx3 := (sortByLe_perm _ _).subset hx2
                rw [hSI.ht, hSI.hk, hSI.hn] at hx3
                exact expand_preserves_inv hs_inv hx3
              · exact hrest_inv x hx
            refine ih _ _ _
              ⟨hSI.ht, hSI.hk, hSI.hn, hfr_inv, hexp_nodup2, hexp_wf2⟩ ?_
            dsimp only
            rw [List.length_cons, List.length_append, List.length_reverse]
            have hunused_nodup := (hs_inv.unused_used_nodup).1
            have hunused_le : s.unused_permutations.length ≤ Nat.choose n t := by
              have hle := nodup_subset_length_le hunused_nodup
                (fun p hp => hs_inv.unused_wf hp)
              rw [length_permutations] at hle
              have hrl : (List.range' 1 n).length = n := by simp
              rw [hrl] at hle
              exact hle
            have hpush_le : (dedupBySig (sortByLe (fun a b => lexLeSig a.set b.set)
                (expand st.t st.k st.n s st.dead_ends (s.set :: st.explored)))).length ≤
                Nat.choose n t * descFac n (k - t) := by
              refine le_trans ((dedupBySig_sublist _).length_le) ?_
              rw [(sortByLe_perm _ _).length_eq]
              have hexp_le : (expand st.t st.k st.n s st.dead_ends
                  (s.set :: st.explored)).length ≤
                  s.unused_permutations.length * descFac n (k - t) := by
                rw [hSI.ht, hSI.hk, hSI.hn]
                exact expand_length_le hs_inv htk
              refine le_trans hexp_le ?_
              exact Nat.mul_le_mul_right _ hunused_le
            omega

/-- C8: for every valid t < k < n, the search terminates: a finite amount of
fuel (one unit per frontier pop) suffices for the run to return, so the whole
iterator performs finitely many pops and produces the finite list of all its
solutions before exhaustion. -/
theorem claim_C8_termination {t k n : Nat} (ht : t < k) (hk : k < n) :
    ∃ fuel ds st2 tr, runAux fuel (mkSearcher t k n) [] [] = some (ds, st2, tr) := by
  have hn0 : 0 < n := lt_trans (Nat.lt_of_le_of_lt (Nat.zero_le t) ht) hk
  have h := runAux_isSome (le_of_lt ht)
    ((mkSearcher t k n).fringe.length + (Nat.choose n t * descFac n (k - t) + 1) *
      (sigBound n k - (mkSearcher t k n).explored.length) + 1)
    (mkSearcher t k n) [] [] (mkSearcher_inv t k n) (by omega)
  rcases Option.isSome_iff_exists.mp h with ⟨⟨ds, st2, tr⟩, hrun⟩
  exact ⟨_, ds, st2, tr, hrun⟩

theorem claim_C8_termination_witness :
    ∃ fuel ds st2 tr, runAux fuel (mkSearcher 1 2 4) [] [] = some (ds, st2, tr) :=
  claim_C8_termination (by decide) (by decide)
